import Mathlib

/-!
Verification of the worker-pool / rate-limited task processor of
`src/examples/01-basics/15-worker-pools/main.go`.

The Go program is embedded as a small-step transition system:

* `Task`, `WorkerStats` mirror the Go structs (`uint64` / `int64` counters
  become `Nat` / `Int`; every atomic add in the source adds `1` resp. a
  non-negative elapsed duration, so no overflow wrap is reachable in the
  modelled runs and plain `Nat`/`Int` arithmetic is faithful).
* `PoolState` is the joint state of the producer goroutine, the task
  channel buffer, the worker goroutines, the result channel buffer, the
  collector loop in `main`, and the shared stats object.  Both channels are
  created with capacity `numTasks`, which is an upper bound on everything
  ever buffered, so the capacity guard never binds and is omitted.
* `PoolStep` lists the atomic actions of the Go code: a producer send, the
  `close(tasks)` call, a worker receiving from `range tasks`, the
  processing body (sleep + `task.Result = task.ID * 2` + the two atomic
  adds), the `results <- task` send, a worker's loop exit on a closed and
  drained channel, the `wg.Wait(); close(results)` goroutine (enabled only
  once every worker has exited, i.e. has called `wg.Done`), and one
  iteration of the collector's `for result := range results` loop.
-/

namespace WorkerPools

/-- `type Task struct { ID int; Result int }`. -/
structure Task where
  ID : Int
  Result : Int
deriving DecidableEq

/-- `type WorkerStats struct { tasksProcessed uint64; totalTime int64 }`. -/
structure WorkerStats where
  tasksProcessed : Nat
  totalTime : Int
deriving DecidableEq

/-- The processing body shared by `worker` and `rateLimitedWorker`:
`task.Result = task.ID * 2`. -/
def processTask (t : Task) : Task :=
  { t with Result := t.ID * 2 }

/-- Control position of one worker goroutine inside its
`for task := range tasks` loop. `processing t` holds a task received but
whose stats update has not happened yet; `sending t` holds the processed
task after the atomic adds, before `results <- task`. -/
inductive WPhase where
  | idle
  | processing (t : Task)
  | sending (t : Task)
  | done
deriving DecidableEq

/-- Joint state of producer, channels, workers, collector and stats. -/
structure PoolState where
  toSend : List Task
  tasksClosed : Bool
  pending : List Task
  workers : List WPhase
  resultsBuf : List Task
  resultsClosed : Bool
  collected : List Task
  stats : WorkerStats
deriving DecidableEq

/-- One atomic action of the Go program (see the module comment). The
`l1 ++ _ :: l2` patterns select one worker goroutine. In `work`, `e` is
the non-negative elapsed time measured by `time.Since(start)` (a monotonic
clock reading, hence a natural number of nanoseconds). -/
inductive PoolStep : PoolState → PoolState → Prop where
  | produce (s : PoolState) (t : Task) (rest : List Task) :
      s.toSend = t :: rest →
      PoolStep s { s with toSend := rest, pending := s.pending ++ [t] }
  | closeTasks (s : PoolState) :
      s.toSend = [] → s.tasksClosed = false →
      PoolStep s { s with tasksClosed := true }
  | dequeue (s : PoolState) (t : Task) (rest : List Task)
      (l1 l2 : List WPhase) :
      s.workers = l1 ++ WPhase.idle :: l2 →
      s.pending = t :: rest →
      PoolStep s { s with pending := rest,
                          workers := l1 ++ WPhase.processing t :: l2 }
  | work (s : PoolState) (t : Task) (e : Nat) (l1 l2 : List WPhase) :
      s.workers = l1 ++ WPhase.processing t :: l2 →
      PoolStep s { s with
        workers := l1 ++ WPhase.sending (processTask t) :: l2,
        stats := { tasksProcessed := s.stats.tasksProcessed + 1,
                   totalTime := s.stats.totalTime + (e : Int) } }
  | send (s : PoolState) (t : Task) (l1 l2 : List WPhase) :
      s.workers = l1 ++ WPhase.sending t :: l2 →
      PoolStep s { s with workers := l1 ++ WPhase.idle :: l2,
                          resultsBuf := s.resultsBuf ++ [t] }
  | exitWorker (s : PoolState) (l1 l2 : List WPhase) :
      s.workers = l1 ++ WPhase.idle :: l2 →
      s.tasksClosed = true → s.pending = [] →
      PoolStep s { s with workers := l1 ++ WPhase.done :: l2 }
  | closeResults (s : PoolState) :
      (∀ w ∈ s.workers, w = WPhase.done) → s.resultsClosed = false →
      PoolStep s { s with resultsClosed := true }
  | collect (s : PoolState) (r : Task) (rest : List Task) :
      s.resultsBuf = r :: rest →
      PoolStep s { s with resultsBuf := rest,
                          collected := s.collected ++ [r] }

/-- Reflexive-transitive closure of `PoolStep`. -/
inductive Reach (s0 : PoolState) : PoolState → Prop where
  | refl : Reach s0 s0
  | tail {s s' : PoolState} : Reach s0 s → PoolStep s s' → Reach s0 s'

/-- Initial state of one pool run: the producer holds the whole task list,
channels are empty and open, `W` workers have been started (the
`for i := 1; i <= numWorkers; i++ { wg.Add(1); go worker(...) }` loop),
and the stats object starts with the counters it carried when the pool
was started (`stats0`; the program reuses a single `WorkerStats` across
its three pools). -/
def initState (W : Nat) (tasks0 : List Task) (stats0 : WorkerStats) : PoolState :=
  { toSend := tasks0, tasksClosed := false, pending := [],
    workers := List.replicate W WPhase.idle, resultsBuf := [],
    resultsClosed := false, collected := [], stats := stats0 }

/-- The pool has run to completion: producer finished and closed the task
channel, every worker exited, the result channel was closed and the
collector drained it. -/
def Completed (s : PoolState) : Prop :=
  s.toSend = [] ∧ s.tasksClosed = true ∧ (∀ w ∈ s.workers, w = WPhase.done)
    ∧ s.pending = [] ∧ s.resultsBuf = [] ∧ s.resultsClosed = true

instance (s : PoolState) : Decidable (Completed s) := by
  unfold Completed
  infer_instance

/-- Multiset of task identifiers of a list of tasks. -/
def idsOf (l : List Task) : Multiset Int :=
  (l.map Task.ID : List Int)

/-- Identifier held by a worker that is mid-processing, as a multiset. -/
def phaseIds : WPhase → Multiset Int
  | .processing t => {t.ID}
  | .sending t => {t.ID}
  | _ => 0

/-- Identifiers of all tasks currently held inside worker goroutines. -/
def inFlight (ws : List WPhase) : Multiset Int :=
  (ws.map phaseIds).sum

/-- Indicator of the `sending` phase. -/
def sendWeight : WPhase → Nat
  | .sending _ => 1
  | _ => 0

/-- Number of workers that incremented the counters but have not yet sent
their result. -/
def sendingNum (ws : List WPhase) : Nat :=
  (ws.map sendWeight).sum

@[simp] lemma idsOf_nil : idsOf [] = 0 := rfl

@[simp] lemma idsOf_cons (t : Task) (l : List Task) :
    idsOf (t :: l) = {t.ID} + idsOf l := by
  simp [idsOf, Multiset.singleton_add]

@[simp] lemma idsOf_append (l1 l2 : List Task) :
    idsOf (l1 ++ l2) = idsOf l1 + idsOf l2 := by
  simp [idsOf]

@[simp] lemma inFlight_nil : inFlight [] = 0 := rfl

@[simp] lemma inFlight_cons (w : WPhase) (ws : List WPhase) :
    inFlight (w :: ws) = phaseIds w + inFlight ws := by
  simp [inFlight]

@[simp] lemma inFlight_append (l1 l2 : List WPhase) :
    inFlight (l1 ++ l2) = inFlight l1 + inFlight l2 := by
  simp [inFlight]

@[simp] lemma sendingNum_nil : sendingNum [] = 0 := rfl

@[simp] lemma sendingNum_cons (w : WPhase) (ws : List WPhase) :
    sendingNum (w :: ws) = sendWeight w + sendingNum ws := by
  simp [sendingNum]

@[simp] lemma sendingNum_append (l1 l2 : List WPhase) :
    sendingNum (l1 ++ l2) = sendingNum l1 + sendingNum l2 := by
  simp [sendingNum]

lemma inFlight_of_all_done {ws : List WPhase}
    (h : ∀ w ∈ ws, w = WPhase.done) : inFlight ws = 0 := by
  induction ws with
  | nil => rfl
  | cons w ws ih =>
      have hw : w = WPhase.done := h w (List.mem_cons_self w ws)
      have hws : ∀ w ∈ ws, w = WPhase.done := fun x hx => h x (List.mem_cons_of_mem _ hx)
      simp [hw, ih hws, phaseIds]

lemma sendingNum_of_all_done {ws : List WPhase}
    (h : ∀ w ∈ ws, w = WPhase.done) : sendingNum ws = 0 := by
  induction ws with
  | nil => rfl
  | cons w ws ih =>
      have hw : w = WPhase.done := h w (List.mem_cons_self w ws)
      have hws : ∀ w ∈ ws, w = WPhase.done := fun x hx => h x (List.mem_cons_of_mem _ hx)
      simp [hw, ih hws, sendWeight]

lemma mem_of_split {ws l1 l2 : List WPhase} {ph : WPhase}
    (h : ws = l1 ++ ph :: l2) : ph ∈ ws := by
  subst h
  exact List.mem_append_right _ (List.mem_cons_self _ _)

lemma exists_split_of_mem {ph : WPhase} {ws : List WPhase} (h : ph ∈ ws) :
    ∃ l1 l2, ws = l1 ++ ph :: l2 := by
  induction ws with
  | nil => simp at h
  | cons w ws ih =>
      rcases List.mem_cons.mp h with h' | h'
      · exact ⟨[], ws, by simp [h']⟩
      · obtain ⟨l1, l2, hl⟩ := ih h'
        exact ⟨w :: l1, l2, by simp [hl]⟩

lemma length_of_card_ids {l : List Task} : Multiset.card (idsOf l) = l.length := by
  simp [idsOf]

/-- Transport of a worker-phase membership across the replacement of one
worker's phase. -/
lemma mem_other_of_split {ws l1 l2 : List WPhase} {oldPh newPh x : WPhase}
    (hws : ws = l1 ++ oldPh :: l2) (hx : x ∈ l1 ++ newPh :: l2)
    (hne : x ≠ newPh) : x ∈ ws := by
  subst hws
  rcases List.mem_append.mp hx with h | h
  · exact List.mem_append_left _ h
  · rcases List.mem_cons.mp h with h | h
    · exact absurd h hne
    · exact List.mem_append_right _ (List.mem_cons_of_mem _ h)

/-- Run invariant of one pool started as `initState W tasks0 stats0`.
Every field is established at the initial state and preserved by every
`PoolStep`. -/
structure Inv (W : Nat) (tasks0 : List Task) (stats0 : WorkerStats)
    (s : PoolState) : Prop where
  len_workers : s.workers.length = W
  closed_toSend : s.tasksClosed = true → s.toSend = []
  done_closed : WPhase.done ∈ s.workers → s.tasksClosed = true
  done_pending : WPhase.done ∈ s.workers → s.pending = []
  resClosed_done : s.resultsClosed = true → ∀ w ∈ s.workers, w = WPhase.done
  conservation :
    idsOf s.toSend + idsOf s.pending + inFlight s.workers
      + idsOf s.resultsBuf + idsOf s.collected = idsOf tasks0
  count_eq :
    s.stats.tasksProcessed
      = stats0.tasksProcessed + sendingNum s.workers
        + s.resultsBuf.length + s.collected.length
  time_ge : stats0.totalTime ≤ s.stats.totalTime
  results_ok : ∀ t : Task,
    (WPhase.sending t ∈ s.workers ∨ t ∈ s.resultsBuf ∨ t ∈ s.collected) →
    t.Result = t.ID * 2

lemma inv_init (W : Nat) (tasks0 : List Task) (stats0 : WorkerStats) :
    Inv W tasks0 stats0 (initState W tasks0 stats0) := by
  constructor <;>
    simp [initState, inFlight, sendingNum, phaseIds, sendWeight,
      List.map_replicate, List.sum_replicate, List.mem_replicate]

lemma inv_step {W : Nat} {tasks0 : List Task} {stats0 : WorkerStats}
    {s s' : PoolState} (hinv : Inv W tasks0 stats0 s) (hstep : PoolStep s s') :
    Inv W tasks0 stats0 s' := by
  obtain ⟨hlen, hct, hdc, hdp, hrc, hcons, hcnt, htg, hrok⟩ := hinv
  cases hstep with
  | produce t rest h =>
      refine ⟨by simpa using hlen, ?_, ?_, ?_, ?_, ?_, by simpa using hcnt,
        by simpa using htg, ?_⟩
      · intro hc
        exfalso
        have h0 := hct (by simpa using hc)
        rw [h] at h0
        simp at h0
      · intro hd
        exact hdc (by simpa using hd)
      · intro hd
        exfalso
        have h0 := hct (hdc (by simpa using hd))
        rw [h] at h0
        simp at h0
      · intro hc w hw
        exact hrc (by simpa using hc) w (by simpa using hw)
      · rw [h] at hcons
        simp only [idsOf_append, idsOf_cons, idsOf_nil] at hcons ⊢
        rw [← hcons]
        abel
      · intro t' h'
        exact hrok t' (by simpa using h')
  | closeTasks h hc =>
      refine ⟨by simpa using hlen, ?_, ?_, by simpa using hdp,
        ?_, by simpa using hcons, by simpa using hcnt,
        by simpa using htg, ?_⟩
      · intro _
        simpa using h
      · intro _
        rfl
      · intro hres w hw
        exact hrc (by simpa using hres) w (by simpa using hw)
      · intro t' h'
        exact hrok t' (by simpa using h')
  | dequeue t rest l1 l2 hw hp =>
      have hidle : WPhase.idle ∈ s.workers := mem_of_split hw
      refine ⟨?_, by simpa using hct, ?_, ?_, ?_, ?_, ?_, by simpa using htg, ?_⟩
      · rw [hw] at hlen
        simp only [List.length_append, List.length_cons] at hlen ⊢
        simpa using hlen
      · intro hd
        exact hdc (mem_other_of_split hw hd (by simp))
      · intro hd
        exfalso
        have hd' := hdp (mem_other_of_split hw hd (by simp))
        rw [hp] at hd'
        simp at hd'
      · intro hc
        exfalso
        exact absurd (hrc (by simpa using hc) WPhase.idle hidle) (by simp)
      · rw [hw, hp] at hcons
        simp only [inFlight_append, inFlight_cons, idsOf_cons, phaseIds] at hcons ⊢
        rw [← hcons]
        abel
      · rw [hw] at hcnt
        simp only [sendingNum_append, sendingNum_cons, sendWeight] at hcnt ⊢
        simpa using hcnt
      · intro t' h'
        simp only [List.mem_append, List.mem_cons] at h'
        rcases h' with (h' | h' | h') | h' | h'
        · exact hrok t' (Or.inl (by rw [hw]; exact List.mem_append_left _ h'))
        · exact absurd h' (by simp)
        · exact hrok t'
            (Or.inl (by rw [hw]; exact List.mem_append_right _ (List.mem_cons_of_mem _ h')))
        · exact hrok t' (Or.inr (Or.inl h'))
        · exact hrok t' (Or.inr (Or.inr h'))
  | work t e l1 l2 hw =>
      refine ⟨?_, by simpa using hct, ?_, ?_, ?_, ?_, ?_, ?_, ?_⟩
      · rw [hw] at hlen
        simp only [List.length_append, List.length_cons] at hlen ⊢
        simpa using hlen
      · intro hd
        exact hdc (mem_other_of_split hw hd (by simp))
      · intro hd
        have := hdp (mem_other_of_split hw hd (by simp))
        simpa using this
      · intro hc
        exfalso
        exact absurd
          (hrc (by simpa using hc) (WPhase.processing t) (mem_of_split hw))
          (by simp)
      · rw [hw] at hcons
        simp only [inFlight_append, inFlight_cons, phaseIds, processTask] at hcons ⊢
        rw [← hcons]
      · rw [hw] at hcnt
        simp only [sendingNum_append, sendingNum_cons, sendWeight] at hcnt ⊢
        simp only [hcnt]
        omega
      · show stats0.totalTime ≤ s.stats.totalTime + (e : Int)
        have he : (0 : Int) ≤ (e : Int) := Int.ofNat_nonneg e
        omega
      · intro t' h'
        simp only [List.mem_append, List.mem_cons] at h'
        rcases h' with (h' | h' | h') | h' | h'
        · exact hrok t' (Or.inl (by rw [hw]; exact List.mem_append_left _ h'))
        · have ht' : t' = processTask t := by
            cases h'
            rfl
          simp [ht', processTask]
        · exact hrok t'
            (Or.inl (by rw [hw]; exact List.mem_append_right _ (List.mem_cons_of_mem _ h')))
        · exact hrok t' (Or.inr (Or.inl h'))
        · exact hrok t' (Or.inr (Or.inr h'))
  | send t l1 l2 hw =>
      refine ⟨?_, by simpa using hct, ?_, ?_, ?_, ?_, ?_, by simpa using htg, ?_⟩
      · rw [hw] at hlen
        simp only [List.length_append, List.length_cons] at hlen ⊢
        simpa using hlen
      · intro hd
        exact hdc (mem_other_of_split hw hd (by simp))
      · intro hd
        have := hdp (mem_other_of_split hw hd (by simp))
        simpa using this
      · intro hc
        exfalso
        exact absurd
          (hrc (by simpa using hc) (WPhase.sending t) (mem_of_split hw))
          (by simp)
      · rw [hw] at hcons
        simp only [inFlight_append, inFlight_cons, idsOf_append, idsOf_cons,
          idsOf_nil, phaseIds] at hcons ⊢
        rw [← hcons]
        abel
      · rw [hw] at hcnt
        simp only [sendingNum_append, sendingNum_cons, sendWeight,
          List.length_append, List.length_cons, List.length_nil] at hcnt ⊢
        simp only [hcnt]
        omega
      · intro t' h'
        simp only [List.mem_append, List.mem_cons] at h'
        rcases h' with (h' | h' | h') | h' | h'
        · exact hrok t' (Or.inl (by rw [hw]; exact List.mem_append_left _ h'))
        · exact absurd h' (by simp)
        · exact hrok t'
            (Or.inl (by rw [hw]; exact List.mem_append_right _ (List.mem_cons_of_mem _ h')))
        · rcases h' with h' | h'
          · exact hrok t' (Or.inr (Or.inl h'))
          · have ht' : t' = t := by simpa using h'
            exact ht' ▸ hrok t (Or.inl (mem_of_split hw))
        · exact hrok t' (Or.inr (Or.inr h'))
  | exitWorker l1 l2 hw hc hp =>
      refine ⟨?_, by simpa using hct, ?_, ?_, ?_, ?_, ?_, by simpa using htg, ?_⟩
      · rw [hw] at hlen
        simp only [List.length_append, List.length_cons] at hlen ⊢
        simpa using hlen
      · intro _
        simpa using hc
      · intro _
        simpa using hp
      · intro hres
        exfalso
        exact absurd (hrc (by simpa using hres) WPhase.idle (mem_of_split hw))
          (by simp)
      · rw [hw] at hcons
        simp only [inFlight_append, inFlight_cons, phaseIds] at hcons ⊢
        exact hcons
      · rw [hw] at hcnt
        simp only [sendingNum_append, sendingNum_cons, sendWeight] at hcnt ⊢
        simpa using hcnt
      · intro t' h'
        simp only [List.mem_append, List.mem_cons] at h'
        rcases h' with (h' | h' | h') | h' | h'
        · exact hrok t' (Or.inl (by rw [hw]; exact List.mem_append_left _ h'))
        · exact absurd h' (by simp)
        · exact hrok t'
            (Or.inl (by rw [hw]; exact List.mem_append_right _ (List.mem_cons_of_mem _ h')))
        · exact hrok t' (Or.inr (Or.inl h'))
        · exact hrok t' (Or.inr (Or.inr h'))
  | closeResults hall hro =>
      refine ⟨by simpa using hlen, by simpa using hct, by simpa using hdc,
        by simpa using hdp, ?_, by simpa using hcons, by simpa using hcnt,
        by simpa using htg, ?_⟩
      · intro _ w hwmem
        exact hall w (by simpa using hwmem)
      · intro t' h'
        exact hrok t' (by simpa using h')
  | collect r rest h =>
      refine ⟨by simpa using hlen, by simpa using hct, by simpa using hdc,
        by simpa using hdp, ?_, ?_, ?_, by simpa using htg, ?_⟩
      · intro hres w hwmem
        exact hrc (by simpa using hres) w (by simpa using hwmem)
      · rw [h] at hcons
        simp only [idsOf_append, idsOf_cons, idsOf_nil] at hcons ⊢
        rw [← hcons]
        abel
      · rw [h] at hcnt
        simp only [List.length_cons, List.length_append, List.length_nil] at hcnt ⊢
        simp only [hcnt]
        omega
      · intro t' h'
        simp only [List.mem_append, List.mem_cons] at h'
        rcases h' with h' | h' | h'
        · exact hrok t' (Or.inl h')
        · exact hrok t' (Or.inr (Or.inl (by rw [h]; exact List.mem_cons_of_mem _ h')))
        · rcases h' with h' | h'
          · exact hrok t' (Or.inr (Or.inr h'))
          · have ht' : t' = r := by simpa using h'
            exact hrok t' (Or.inr (Or.inl (by rw [h, ht']; exact List.mem_cons_self _ _)))

lemma inv_of_reach {W : Nat} {tasks0 : List Task} {stats0 : WorkerStats}
    {s : PoolState} (h : Reach (initState W tasks0 stats0) s) :
    Inv W tasks0 stats0 s := by
  induction h with
  | refl => exact inv_init W tasks0 stats0
  | tail hr hstep ih => exact inv_step ih hstep

/-- A state with no enabled action: the run cannot continue. -/
def Stuck (s : PoolState) : Prop :=
  ∀ s', ¬ PoolStep s s'

/-- Deadlock-freedom: in a pool with at least one worker, a reachable
state from which no action is enabled is a completed state — the run
never gets stuck halfway. -/
lemma stuck_completed {W : Nat} {tasks0 : List Task} {stats0 : WorkerStats}
    {s : PoolState} (hW : 1 ≤ W) (hinv : Inv W tasks0 stats0 s)
    (hstuck : Stuck s) : Completed s := by
  have hts : s.toSend = [] := by
    cases h : s.toSend with
    | nil => rfl
    | cons t rest => exact absurd (PoolStep.produce s t rest h) (hstuck _)
  have hcl : s.tasksClosed = true := by
    cases h : s.tasksClosed with
    | true => rfl
    | false => exact absurd (PoolStep.closeTasks s hts h) (hstuck _)
  have hall : ∀ w ∈ s.workers, w = WPhase.done := by
    intro w hw
    obtain ⟨l1, l2, hsplit⟩ := exists_split_of_mem hw
    cases w with
    | idle =>
        cases hp : s.pending with
        | nil => exact absurd (PoolStep.exitWorker s l1 l2 hsplit hcl hp) (hstuck _)
        | cons t rest => exact absurd (PoolStep.dequeue s t rest l1 l2 hsplit hp) (hstuck _)
    | processing t => exact absurd (PoolStep.work s t 0 l1 l2 hsplit) (hstuck _)
    | sending t => exact absurd (PoolStep.send s t l1 l2 hsplit) (hstuck _)
    | done => rfl
  have hpend : s.pending = [] := by
    obtain ⟨w, hwmem⟩ : ∃ w, w ∈ s.workers := by
      cases hws : s.workers with
      | nil =>
          exfalso
          have hl := hinv.len_workers
          rw [hws] at hl
          simp at hl
          omega
      | cons a l => exact ⟨a, hws ▸ List.mem_cons_self a l⟩
    exact hinv.done_pending (hall w hwmem ▸ hwmem)
  have hbuf : s.resultsBuf = [] := by
    cases h : s.resultsBuf with
    | nil => rfl
    | cons r rest => exact absurd (PoolStep.collect s r rest h) (hstuck _)
  have hrcl : s.resultsClosed = true := by
    cases h : s.resultsClosed with
    | true => rfl
    | false => exact absurd (PoolStep.closeResults s hall h) (hstuck _)
  exact ⟨hts, hcl, hall, hpend, hbuf, hrcl⟩

/-- Weight of a worker phase inside the termination measure. -/
def phaseWeight : WPhase → Nat
  | .idle => 1
  | .processing _ => 4
  | .sending _ => 3
  | .done => 0

/-- Termination measure: strictly decreases along every `PoolStep`, so no
run of the pool is infinite. -/
def poolMeasure (s : PoolState) : Nat :=
  6 * s.toSend.length + 5 * s.pending.length + (s.workers.map phaseWeight).sum
    + s.resultsBuf.length + (if s.tasksClosed then 0 else 1)
    + (if s.resultsClosed then 0 else 1)

lemma poolMeasure_decreases {s s' : PoolState} (h : PoolStep s s') :
    poolMeasure s' < poolMeasure s := by
  cases h with
  | produce t rest h =>
      simp only [poolMeasure, h, List.length_append, List.length_cons,
        List.length_nil]
      omega
  | closeTasks h hc =>
      simp only [poolMeasure, hc, if_false, if_true, Bool.false_eq_true]
      omega
  | dequeue t rest l1 l2 hw hp =>
      simp only [poolMeasure, hw, hp, List.length_cons, List.map_append,
        List.map_cons, List.sum_append, List.sum_cons, phaseWeight]
      omega
  | work t e l1 l2 hw =>
      simp only [poolMeasure, hw, List.map_append, List.map_cons,
        List.sum_append, List.sum_cons, phaseWeight]
      omega
  | send t l1 l2 hw =>
      simp only [poolMeasure, hw, List.map_append, List.map_cons,
        List.sum_append, List.sum_cons, phaseWeight, List.length_append,
        List.length_cons, List.length_nil]
      omega
  | exitWorker l1 l2 hw hc hp =>
      simp only [poolMeasure, hw, List.map_append, List.map_cons,
        List.sum_append, List.sum_cons, phaseWeight]
      omega
  | closeResults hall hro =>
      simp only [poolMeasure, hro, if_false, if_true, Bool.false_eq_true]
      omega
  | collect r rest h =>
      simp only [poolMeasure, h, List.length_cons, List.length_append,
        List.length_nil]
      omega

/-- No action is enabled in a completed state: the pool takes no further
steps once it has completed. -/
lemma completed_no_step {s s' : PoolState} (hc : Completed s) :
    ¬ PoolStep s s' := by
  obtain ⟨hts, hcl, hall, hpend, hbuf, hrcl⟩ := hc
  intro h
  cases h with
  | produce t rest h =>
      rw [hts] at h
      simp at h
  | closeTasks h hcl' =>
      rw [hcl] at hcl'
      simp at hcl'
  | dequeue t rest l1 l2 hw hp =>
      rw [hpend] at hp
      simp at hp
  | work t e l1 l2 hw =>
      have := hall _ (mem_of_split hw)
      simp at this
  | send t l1 l2 hw =>
      have := hall _ (mem_of_split hw)
      simp at this
  | exitWorker l1 l2 hw hc' hp =>
      have := hall _ (mem_of_split hw)
      simp at this
  | closeResults hall' hro =>
      rw [hrcl] at hro
      simp at hro
  | collect r rest h =>
      rw [hbuf] at h
      simp at h

/-!
Concrete runs, used as witnesses below.

Run A is a pool with one worker and one task whose stats object starts at
`tasksProcessed = 10`: this is exactly the situation of the program's
second (rate-limited) pool, which receives the same `stats` pointer that
the first pool already incremented ten times (`main.go` passes `stats` to
`worker` and to `rateLimitedWorker` and to the dynamic pool's `worker`).

Run B is a pool with one worker and zero tasks starting from fresh stats.
-/

def taskA : Task := ⟨1, 0⟩

def stA0 : PoolState := initState 1 [taskA] ⟨10, 0⟩

def stA1 : PoolState :=
  ⟨[], false, [taskA], [WPhase.idle], [], false, [], ⟨10, 0⟩⟩

def stA2 : PoolState :=
  ⟨[], true, [taskA], [WPhase.idle], [], false, [], ⟨10, 0⟩⟩

def stA3 : PoolState :=
  ⟨[], true, [], [WPhase.processing taskA], [], false, [], ⟨10, 0⟩⟩

def stA4 : PoolState :=
  ⟨[], true, [], [WPhase.sending ⟨1, 2⟩], [], false, [], ⟨11, 0⟩⟩

def stA5 : PoolState :=
  ⟨[], true, [], [WPhase.idle], [⟨1, 2⟩], false, [], ⟨11, 0⟩⟩

def stA6 : PoolState :=
  ⟨[], true, [], [WPhase.done], [⟨1, 2⟩], false, [], ⟨11, 0⟩⟩

def stA7 : PoolState :=
  ⟨[], true, [], [WPhase.done], [⟨1, 2⟩], true, [], ⟨11, 0⟩⟩

def stA8 : PoolState :=
  ⟨[], true, [], [WPhase.done], [], true, [⟨1, 2⟩], ⟨11, 0⟩⟩

lemma reachA : Reach stA0 stA8 := by
  have h1 : PoolStep stA0 stA1 := PoolStep.produce stA0 taskA [] rfl
  have h2 : PoolStep stA1 stA2 := PoolStep.closeTasks stA1 rfl rfl
  have h3 : PoolStep stA2 stA3 := PoolStep.dequeue stA2 taskA [] [] [] rfl rfl
  have h4 : PoolStep stA3 stA4 := PoolStep.work stA3 taskA 0 [] [] rfl
  have h5 : PoolStep stA4 stA5 := PoolStep.send stA4 ⟨1, 2⟩ [] [] rfl
  have h6 : PoolStep stA5 stA6 := PoolStep.exitWorker stA5 [] [] rfl rfl rfl
  have h7 : PoolStep stA6 stA7 := PoolStep.closeResults stA6 (by decide) rfl
  have h8 : PoolStep stA7 stA8 := PoolStep.collect stA7 ⟨1, 2⟩ [] rfl
  exact Reach.tail (Reach.tail (Reach.tail (Reach.tail (Reach.tail
    (Reach.tail (Reach.tail (Reach.tail Reach.refl h1) h2) h3) h4) h5)
    h6) h7) h8

lemma stuckA : Stuck stA8 := by
  intro s' h
  cases h with
  | produce t rest h => simp [stA8] at h
  | closeTasks h hc => simp [stA8] at hc
  | dequeue t rest l1 l2 hw hp => simp [stA8] at hp
  | work t e l1 l2 hw => exact absurd (mem_of_split hw) (by simp [stA8])
  | send t l1 l2 hw => exact absurd (mem_of_split hw) (by simp [stA8])
  | exitWorker l1 l2 hw hc hp => exact absurd (mem_of_split hw) (by simp [stA8])
  | closeResults hall hro => simp [stA8] at hro
  | collect r rest h => simp [stA8] at h

def stB0 : PoolState := initState 1 [] ⟨0, 0⟩

def stB1 : PoolState :=
  ⟨[], true, [], [WPhase.idle], [], false, [], ⟨0, 0⟩⟩

def stB2 : PoolState :=
  ⟨[], true, [], [WPhase.done], [], false, [], ⟨0, 0⟩⟩

def stB3 : PoolState :=
  ⟨[], true, [], [WPhase.done], [], true, [], ⟨0, 0⟩⟩

lemma reachB : Reach stB0 stB3 := by
  have h1 : PoolStep stB0 stB1 := PoolStep.closeTasks stB0 rfl rfl
  have h2 : PoolStep stB1 stB2 := PoolStep.exitWorker stB1 [] [] rfl rfl rfl
  have h3 : PoolStep stB2 stB3 := PoolStep.closeResults stB2 (by decide) rfl
  exact Reach.tail (Reach.tail (Reach.tail Reach.refl h1) h2) h3

lemma stuckB : Stuck stB3 := by
  intro s' h
  cases h with
  | produce t rest h => simp [stB3] at h
  | closeTasks h hc => simp [stB3] at hc
  | dequeue t rest l1 l2 hw hp => simp [stB3] at hp
  | work t e l1 l2 hw => exact absurd (mem_of_split hw) (by simp [stB3])
  | send t l1 l2 hw => exact absurd (mem_of_split hw) (by simp [stB3])
  | exitWorker l1 l2 hw hc hp => exact absurd (mem_of_split hw) (by simp [stB3])
  | closeResults hall hro => simp [stB3] at hro
  | collect r rest h => simp [stB3] at h

lemma collected_complete {W : Nat} {tasks0 : List Task}
    {stats0 : WorkerStats} {s : PoolState} (hinv : Inv W tasks0 stats0 s)
    (hts : s.toSend = []) (hall : ∀ w ∈ s.workers, w = WPhase.done)
    (hpend : s.pending = []) (hbuf : s.resultsBuf = []) :
    idsOf s.collected = idsOf tasks0 := by
  have hcons := hinv.conservation
  rw [hts, hpend, hbuf, inFlight_of_all_done hall] at hcons
  simpa using hcons

/-- Claim C1: in a pool of `W ≥ 1` workers started on `N` submitted tasks,
every maximal run (a reachable state from which no action is enabled) is a
completed run collecting exactly `N` results, with the multiset of
collected task identifiers equal to the multiset submitted — no loss and
no duplication — and every action strictly decreases a finite measure, so
every run terminates; in particular the `N = 0` run completes immediately
with `0` results and without deadlock. -/
theorem pool_collects_exactly_n (W N : Nat) (tasks0 : List Task)
    (stats0 : WorkerStats) (s : PoolState) (hW : 1 ≤ W)
    (hN : tasks0.length = N) (hr : Reach (initState W tasks0 stats0) s)
    (hstuck : Stuck s) :
    Completed s ∧ s.collected.length = N ∧ idsOf s.collected = idsOf tasks0
      ∧ ∀ s1 s2 : PoolState, PoolStep s1 s2 → poolMeasure s2 < poolMeasure s1 := by
  have hinv := inv_of_reach hr
  have hc := stuck_completed hW hinv hstuck
  obtain ⟨hts, hcl, hall, hpend, hbuf, hrcl⟩ := hc
  have hcons := collected_complete hinv hts hall hpend hbuf
  have hlen : s.collected.length = N := by
    have hcard := congrArg Multiset.card hcons
    simp only [length_of_card_ids] at hcard
    exact hcard.trans hN
  exact ⟨⟨hts, hcl, hall, hpend, hbuf, hrcl⟩, hlen, hcons,
    fun s1 s2 h => poolMeasure_decreases h⟩

/-- Witness for C1 at the concrete `N = 0`, `W = 1` run B. -/
theorem pool_collects_exactly_n_witness :
    Completed stB3 ∧ stB3.collected.length = 0
      ∧ idsOf stB3.collected = idsOf []
      ∧ ∀ s1 s2 : PoolState, PoolStep s1 s2 → poolMeasure s2 < poolMeasure s1 :=
  pool_collects_exactly_n 1 0 [] ⟨0, 0⟩ stB3 (by decide) rfl reachB stuckB

/-- Claim C2 (counterexample): the stats object is NOT exclusively owned
by a single pool in the program — `main` passes the same `stats` pointer
to the basic pool, the rate-limited pool and the dynamic pool. A pool
whose stats object already carries `tasksProcessed = 10` (exactly the
situation of the program's second pool after the first processed its 10
tasks) completes a run on `N = 1` submitted task with a snapshot of `11`,
not `N = 1`. -/
theorem processed_count_shared_stats_counterexample :
    Reach (initState 1 [taskA] ⟨10, 0⟩) stA8 ∧ Completed stA8
      ∧ [taskA].length = 1 ∧ stA8.stats.tasksProcessed ≠ 1 :=
  ⟨reachA, by decide, by decide, by decide⟩

/-- Claim C2 (amended): after a pool run to completion on `N` submitted
tasks, `tasksProcessed` equals its value at pool start plus `N`; when the
pool starts with a fresh stats object (counter `0`) — as the program's
first pool does — the snapshot equals `N` exactly. -/
theorem processed_count_adds_n (W N : Nat) (tasks0 : List Task)
    (stats0 : WorkerStats) (s : PoolState)
    (hN : tasks0.length = N) (hr : Reach (initState W tasks0 stats0) s)
    (hc : Completed s) :
    s.stats.tasksProcessed = stats0.tasksProcessed + N := by
  have hinv := inv_of_reach hr
  obtain ⟨hts, hcl, hall, hpend, hbuf, hrcl⟩ := hc
  have hcnt := hinv.count_eq
  rw [hbuf, sendingNum_of_all_done hall] at hcnt
  have hcons := collected_complete hinv hts hall hpend hbuf
  have hlen : s.collected.length = N := by
    have hcard := congrArg Multiset.card hcons
    simp only [length_of_card_ids] at hcard
    exact hcard.trans hN
  simp [hcnt, hlen]

/-- Witness for the amended C2 at run A. -/
theorem processed_count_adds_n_witness :
    stA8.stats.tasksProcessed = 10 + 1 :=
  processed_count_adds_n 1 1 [taskA] ⟨10, 0⟩ stA8 rfl reachA (by decide)

/-- Claim C4: the result queue is closed only in states where every worker
has exited (the `wg.Wait()` barrier guards `close(results)`), and a
maximal (stuck) state of the run has the result queue closed and drained
with every produced result collected — the collector neither stops early
nor hangs. -/
theorem result_queue_close_barrier (W : Nat) (tasks0 : List Task)
    (stats0 : WorkerStats) (s : PoolState) (hW : 1 ≤ W)
    (hr : Reach (initState W tasks0 stats0) s) :
    (s.resultsClosed = true → ∀ w ∈ s.workers, w = WPhase.done)
      ∧ (Stuck s → s.resultsClosed = true ∧ s.resultsBuf = []
          ∧ idsOf s.collected = idsOf tasks0) := by
  have hinv := inv_of_reach hr
  refine ⟨hinv.resClosed_done, fun hstuck => ?_⟩
  obtain ⟨hts, hcl, hall, hpend, hbuf, hrcl⟩ := stuck_completed hW hinv hstuck
  exact ⟨hrcl, hbuf, collected_complete hinv hts hall hpend hbuf⟩

/-- Witness for C4 at run A. -/
theorem result_queue_close_barrier_witness :
    stA8.resultsClosed = true ∧ stA8.resultsBuf = []
      ∧ idsOf stA8.collected = idsOf [taskA] :=
  (result_queue_close_barrier 1 [taskA] ⟨10, 0⟩ stA8 (by decide) reachA).2 stuckA

/-- Claim C5: in every reachable state of any pool run, every task that
has passed the processing body — whether still held by a worker, buffered
in the result queue, or already collected — has `Result = ID * 2`,
independent of which worker processed it. -/
theorem results_are_id_doubled (W : Nat) (tasks0 : List Task)
    (stats0 : WorkerStats) (s : PoolState)
    (hr : Reach (initState W tasks0 stats0) s) :
    ∀ t : Task, (WPhase.sending t ∈ s.workers ∨ t ∈ s.resultsBuf
      ∨ t ∈ s.collected) → t.Result = t.ID * 2 :=
  (inv_of_reach hr).results_ok

/-- Witness for C5: the result collected in run A is its id doubled. -/
theorem results_are_id_doubled_witness :
    (Task.mk 1 2).Result = (Task.mk 1 2).ID * 2 :=
  results_are_id_doubled 1 [taskA] ⟨10, 0⟩ stA8 reachA ⟨1, 2⟩
    (Or.inr (Or.inr (by decide)))

/-- Claim C7: every single step changes the stats counters by an atomic
addition of a non-negative amount (`1` to `tasksProcessed`, a non-negative
elapsed duration to `totalTime`), so both counters are monotonically
non-decreasing along every run, and in a run started from the program's
zero-initialised stats object `totalTime` is never negative. -/
theorem stats_counters_monotone :
    (∀ s s' : PoolState, PoolStep s s' →
        s.stats.tasksProcessed ≤ s'.stats.tasksProcessed
          ∧ s.stats.totalTime ≤ s'.stats.totalTime)
      ∧ (∀ (W : Nat) (tasks0 : List Task) (s : PoolState),
          Reach (initState W tasks0 ⟨0, 0⟩) s → 0 ≤ s.stats.totalTime) := by
  constructor
  · intro s s' h
    cases h with
    | work t e l1 l2 hw =>
        constructor
        · show s.stats.tasksProcessed ≤ s.stats.tasksProcessed + 1
          omega
        · show s.stats.totalTime ≤ s.stats.totalTime + (e : Int)
          have he := Int.ofNat_nonneg e
          omega
    | produce t rest h => exact ⟨le_rfl, le_rfl⟩
    | closeTasks h hc => exact ⟨le_rfl, le_rfl⟩
    | dequeue t rest l1 l2 hw hp => exact ⟨le_rfl, le_rfl⟩
    | send t l1 l2 hw => exact ⟨le_rfl, le_rfl⟩
    | exitWorker l1 l2 hw hc hp => exact ⟨le_rfl, le_rfl⟩
    | closeResults hall hro => exact ⟨le_rfl, le_rfl⟩
    | collect r rest h => exact ⟨le_rfl, le_rfl⟩
  · intro W tasks0 s hr
    have h1 := (inv_of_reach hr).time_ge
    simpa using h1

/-- Witness for C7: the work step of run A and the final state of run B. -/
theorem stats_counters_monotone_witness :
    (stA3.stats.tasksProcessed ≤ stA4.stats.tasksProcessed
      ∧ stA3.stats.totalTime ≤ stA4.stats.totalTime)
      ∧ 0 ≤ stB3.stats.totalTime :=
  ⟨stats_counters_monotone.1 stA3 stA4 (PoolStep.work stA3 taskA 0 [] [] rfl),
    stats_counters_monotone.2 1 [] stB3 reachB⟩

/-- Claim C8: once a pool has completed, no further action of the pool is
enabled, so the state — and with it every snapshot of
`(tasksProcessed, totalTime)` — is unchanged by any further reachable
point: repeated snapshot reads return identical values. -/
theorem snapshot_idempotent_after_completion (s s' : PoolState)
    (hc : Completed s) (hr : Reach s s') :
    s'.stats.tasksProcessed = s.stats.tasksProcessed
      ∧ s'.stats.totalTime = s.stats.totalTime := by
  have heq : s' = s := by
    induction hr with
    | refl => rfl
    | tail hr hstep ih =>
        rw [ih] at hstep
        exact absurd hstep (completed_no_step hc)
  rw [heq]
  exact ⟨rfl, rfl⟩

/-- Witness for C8 at the completed state of run A. -/
theorem snapshot_idempotent_after_completion_witness :
    stA8.stats.tasksProcessed = stA8.stats.tasksProcessed
      ∧ stA8.stats.totalTime = stA8.stats.totalTime :=
  snapshot_idempotent_after_completion stA8 stA8 (by decide) Reach.refl

/-!
Pool start and configuration (claim C3).

The source contains no validation and no error type at all. The basic
pool start is the plain loop `for i := 1; i <= numWorkers; i++ {
wg.Add(1); go worker(...) }`, which for `numWorkers = 0` silently starts
zero workers and returns. Each rate-limited worker executes
`time.NewTicker(time.Second / time.Duration(rate))`: for `rate = 0` the
integer division `time.Second / 0` is a Go runtime panic (divide by
zero), and for a ticker interval `d <= 0` `time.NewTicker` panics with
"non-positive interval for NewTicker". `StartOutcome` has exactly the
outcomes the source can produce — there is no error-value constructor
because the source never returns one.
-/

/-- A Go runtime panic reachable from the start path of the source. -/
inductive GoPanic where
  | divideByZero
  | nonPositiveTickerInterval
deriving DecidableEq

/-- Outcome of starting a pool in the source: either the workers were
launched (normal return, no error value) or the runtime panicked. -/
inductive StartOutcome where
  | started (workerCount : Nat)
  | panicked (p : GoPanic)
deriving DecidableEq

/-- Start of the basic pool: launches `workerCount` workers, no checks. -/
def basicPoolStart (workerCount : Nat) : StartOutcome :=
  StartOutcome.started workerCount

/-- Start of the rate-limited pool: every worker first evaluates
`time.Second / time.Duration(rate)` (integer division, panics on `0`) and
hands it to `time.NewTicker` (panics on a non-positive interval, which
happens when `rate > 10^9` truncates the interval to `0`). -/
def rateLimitedStart (workerCount rate : Nat) : StartOutcome :=
  if rate = 0 then StartOutcome.panicked GoPanic.divideByZero
  else if 1000000000 / rate = 0 then
    StartOutcome.panicked GoPanic.nonPositiveTickerInterval
  else StartOutcome.started workerCount

/-- Claim C3 (counterexample): starting the rate-limited pool with
`rate = 0` is a runtime panic — a crash, not a synchronously raised
caller-visible `ConfigurationError` — and starting the basic pool with
`workerCount = 0` is accepted silently (normal return, zero workers
launched), not rejected. -/
theorem config_error_counterexample :
    rateLimitedStart 3 0 = StartOutcome.panicked GoPanic.divideByZero
      ∧ basicPoolStart 0 = StartOutcome.started 0
      ∧ (initState 0 [taskA] ⟨0, 0⟩).workers = [] :=
  ⟨rfl, rfl, rfl⟩

/-- Claim C3 (amended): the source performs no configuration validation
and has no `ConfigurationError`: `Start` with any `workerCount`
(including `0`) returns normally having launched exactly that many
workers, and a rate limiter configured with `rate = 0` crashes with a
runtime panic (integer division by zero) instead of producing an error. -/
theorem no_configuration_validation (w : Nat) (tasks0 : List Task)
    (stats0 : WorkerStats) :
    basicPoolStart w = StartOutcome.started w
      ∧ rateLimitedStart w 0 = StartOutcome.panicked GoPanic.divideByZero
      ∧ (initState 0 tasks0 stats0).workers.length = 0 :=
  ⟨rfl, rfl, rfl⟩

/-!
Rate limiter timing (claim C6).

A single rate-limited worker is deterministic in logical time: the ticker
created by `time.NewTicker(time.Second / time.Duration(rate))` fires at
every multiple of `T = 10^9 / rate` (truncated integer!) nanoseconds;
the ticker channel buffers one tick and drops further ones, so after
finishing a task at time `r` the worker is admitted at
`max r (next multiple of T strictly after the previous admission)`;
with constant processing time `p` (the source sleeps 50 ms) this gives
the recursion `admissionTime`. `rlRunDuration rate p N` is the wall-clock
time at which the `N`-th task finishes.
-/

/-- Ticker period in nanoseconds: `time.Second / time.Duration(rate)`,
a truncated integer division. -/
def tickPeriodNs (rate : Nat) : Nat := 1000000000 / rate

/-- First multiple of `T` strictly after a time `x` that is itself an
admission instant (admissions happen at tick firing times, so `x` is
either `0` or a past firing time or later). -/
def nextTickAfter (T x : Nat) : Nat := T * (x / T + 1)

/-- Admission time of the `(i+1)`-th task (0-indexed) for one worker with
ticker period `T` and per-task processing time `p`: the first task is
admitted at the first tick `T`; each later task is admitted when the
worker is free and a fresh tick has fired. -/
def admissionTime (T p : Nat) : Nat → Nat
  | 0 => nextTickAfter T 0
  | i + 1 => max (admissionTime T p i + p)
      (nextTickAfter T (admissionTime T p i))

/-- Wall-clock duration of a single rate-limited worker completing `N`
tasks. -/
def rlRunDuration (rate p N : Nat) : Nat :=
  if N = 0 then 0 else admissionTime (tickPeriodNs rate) p (N - 1) + p

lemma nextTickAfter_ge (T x m : Nat) (hT : 0 < T) (hx : m * T ≤ x) :
    (m + 1) * T ≤ nextTickAfter T x := by
  have hm : m ≤ x / T := (Nat.le_div_iff_mul_le hT).mpr hx
  calc (m + 1) * T = T * (m + 1) := by ring
    _ ≤ T * (x / T + 1) := Nat.mul_le_mul_left T (by omega)
    _ = nextTickAfter T x := rfl

lemma admissionTime_ge (T p : Nat) (hT : 0 < T) :
    ∀ i, (i + 1) * T ≤ admissionTime T p i := by
  intro i
  induction i with
  | zero =>
      have h := nextTickAfter_ge T 0 0 hT (by omega)
      simpa [admissionTime] using h
  | succ i ih =>
      have h := nextTickAfter_ge T (admissionTime T p i) (i + 1) hT ih
      calc (i + 1 + 1) * T ≤ nextTickAfter T (admissionTime T p i) := h
        _ ≤ max (admissionTime T p i + p)
              (nextTickAfter T (admissionTime T p i)) := le_max_right _ _
        _ = admissionTime T p (i + 1) := rfl

/-- Claim C6 (counterexample): at `R = 3` ops/sec the claimed strict
period of `1/R` seconds does not hold — the ticker period is the
truncated `⌊10^9/3⌋ = 333333333 ns < 1/3 s` — and the third admission
occurs at `t = 999999999 ns`, strictly before one second has elapsed:
three admissions within less than one second is an admission rate
exceeding `R = 3` operations per second. -/
theorem rate_limiter_exceeds_rate_counterexample :
    tickPeriodNs 3 = 333333333
      ∧ admissionTime (tickPeriodNs 3) 50000000 2 = 999999999
      ∧ admissionTime (tickPeriodNs 3) 50000000 2 < 1000000000
      ∧ 3 * tickPeriodNs 3 < 1000000000 := by
  refine ⟨by decide, by decide, by decide, by decide⟩

/-- Claim C6 (amended): the admission slots of a single rate-limited
worker fire with strict period `⌊10^9/R⌋` nanoseconds (the source's
truncated `time.Second / time.Duration(rate)`; equal to `1/R` seconds
exactly when `R` divides `10^9`, as in the 2 ops/sec scenario) and no
burst credit accumulates, so completing `N ≥ 1` tasks takes at least
`N · ⌊10^9/R⌋ ≥ (N−1) · ⌊10^9/R⌋` nanoseconds; in particular one worker
at 2 ops/sec completing 4 tasks takes at least 1.5 seconds. -/
theorem rate_limiter_period_bound (rate p N : Nat) (h1 : 0 < rate)
    (h2 : rate ≤ 1000000000) (hN : 1 ≤ N) :
    N * tickPeriodNs rate ≤ rlRunDuration rate p N
      ∧ (N - 1) * (1000000000 / rate) ≤ rlRunDuration rate p N
      ∧ 1500000000 ≤ rlRunDuration 2 50000000 4 := by
  have hT : 0 < tickPeriodNs rate := Nat.div_pos h2 h1
  have hadm := admissionTime_ge (tickPeriodNs rate) p hT (N - 1)
  have hsucc : N - 1 + 1 = N := by omega
  rw [hsucc] at hadm
  have hdur : rlRunDuration rate p N
      = admissionTime (tickPeriodNs rate) p (N - 1) + p := by
    rw [rlRunDuration, if_neg (by omega)]
  refine ⟨?_, ?_, by decide⟩
  · rw [hdur]
    omega
  · show (N - 1) * tickPeriodNs rate ≤ rlRunDuration rate p N
    rw [hdur]
    have h3 : (N - 1) * tickPeriodNs rate ≤ N * tickPeriodNs rate :=
      Nat.mul_le_mul_right _ (by omega)
    omega

/-- Witness for the amended C6 at the 2 ops/sec, 4 task scenario. -/
theorem rate_limiter_period_bound_witness :
    4 * tickPeriodNs 2 ≤ rlRunDuration 2 50000000 4
      ∧ 3 * (1000000000 / 2) ≤ rlRunDuration 2 50000000 4
      ∧ 1500000000 ≤ rlRunDuration 2 50000000 4 :=
  rate_limiter_period_bound 2 50000000 4 (by decide) (by decide) (by decide)

/-!
Average latency (claim C9).

`main` computes `avgTime := float64(stats.totalTime) /
float64(stats.tasksProcessed)`. Go float64 division is a total operation:
it never crashes; `0/0` evaluates to NaN and `x/0` for `x ≠ 0` to
`±Inf`. `GoFloat` models the result exactly (finite values kept as exact
rationals, which is enough here since only the `0/0` branch matters). -/

/-- Result of a Go float64 computation. -/
inductive GoFloat where
  | nan
  | posInf
  | negInf
  | val (q : ℚ)
deriving DecidableEq

/-- Go float64 division: total, `0/0 = NaN`, `x/0 = ±Inf` for `x ≠ 0`. -/
def goFloatDiv (x y : ℚ) : GoFloat :=
  if y = 0 then
    if x = 0 then GoFloat.nan
    else if 0 < x then GoFloat.posInf else GoFloat.negInf
  else GoFloat.val (x / y)

/-- `avgTime := float64(stats.totalTime) / float64(stats.tasksProcessed)`. -/
def avgTimeOf (st : WorkerStats) : GoFloat :=
  goFloatDiv (st.totalTime : ℚ) (st.tasksProcessed : ℚ)

lemma zero_run_stats {W : Nat} {s : PoolState}
    (hr : Reach (initState W [] ⟨0, 0⟩) s) :
    s.toSend = [] ∧ s.pending = []
      ∧ (∀ w ∈ s.workers, w = WPhase.idle ∨ w = WPhase.done)
      ∧ s.resultsBuf = [] ∧ s.stats = WorkerStats.mk 0 0 := by
  induction hr with
  | refl =>
      refine ⟨rfl, rfl, ?_, rfl, rfl⟩
      intro w hw
      exact Or.inl (List.eq_of_mem_replicate hw)
  | tail hr hstep ih =>
      obtain ⟨h1, h2, h3, h4, h5⟩ := ih
      cases hstep with
      | produce t rest h =>
          rw [h1] at h
          simp at h
      | closeTasks h hc => exact ⟨h1, h2, h3, h4, h5⟩
      | dequeue t rest l1 l2 hw hp =>
          rw [h2] at hp
          simp at hp
      | work t e l1 l2 hw =>
          have := h3 _ (mem_of_split hw)
          simp at this
      | send t l1 l2 hw =>
          have := h3 _ (mem_of_split hw)
          simp at this
      | exitWorker l1 l2 hw hc hp =>
          refine ⟨h1, h2, ?_, h4, h5⟩
          intro w hwm
          rcases List.mem_append.mp hwm with hm | hm
          · exact h3 w (by rw [hw]; exact List.mem_append_left _ hm)
          · rcases List.mem_cons.mp hm with hm | hm
            · exact Or.inr hm
            · exact h3 w
                (by rw [hw]; exact List.mem_append_right _ (List.mem_cons_of_mem _ hm))
      | closeResults hall hro => exact ⟨h1, h2, h3, h4, h5⟩
      | collect r rest h =>
          rw [h4] at h
          simp at h

/-- Claim C9: the average-latency computation is total (it is a function
into `GoFloat`, never a crash), and in every reachable state of a run on
`N = 0` tasks from the program's zero-initialised stats object it
evaluates the `0/0` branch and returns NaN. -/
theorem avg_latency_nan_on_zero (W : Nat) (s : PoolState)
    (hr : Reach (initState W [] ⟨0, 0⟩) s) :
    avgTimeOf s.stats = GoFloat.nan := by
  have h := (zero_run_stats hr).2.2.2.2
  rw [h]
  simp [avgTimeOf, goFloatDiv]

/-- Witness for C9 at the completed `N = 0` run B. -/
theorem avg_latency_nan_on_zero_witness :
    avgTimeOf stB3.stats = GoFloat.nan :=
  avg_latency_nan_on_zero 1 stB3 reachB

/-!
Dynamic worker pool (claim C10).

The third example starts 2 workers, spawns one goroutine that performs a
single one-shot check `if len(dynamicTasks) > 5 { ...add one worker... }`,
and submits only 5 tasks. The model keeps the producer's remaining tasks,
the queue, whether the one-shot check has run, and the worker count; the
check reads the queue length at whatever moment it is scheduled. Dequeues
are allowed at any time (a superset of the real worker behaviour, which
only makes more queue lengths observable). -/

/-- State of the dynamic-pool example. -/
structure DynState where
  toSend : List Task
  pending : List Task
  checkerRan : Bool
  workerCount : Nat
deriving DecidableEq

/-- Actions of the dynamic-pool example: a producer send, a worker
dequeue, and the one-shot backlog check (lines 209-214 of the source). -/
inductive DynStep : DynState → DynState → Prop where
  | produce (s : DynState) (t : Task) (rest : List Task) :
      s.toSend = t :: rest →
      DynStep s { s with toSend := rest, pending := s.pending ++ [t] }
  | dequeue (s : DynState) (t : Task) (rest : List Task) :
      s.pending = t :: rest →
      DynStep s { s with pending := rest }
  | check (s : DynState) :
      s.checkerRan = false →
      DynStep s { s with checkerRan := true,
                         workerCount := if 5 < s.pending.length
                           then s.workerCount + 1 else s.workerCount }

/-- Reflexive-transitive closure of `DynStep`. -/
inductive DynReach (s0 : DynState) : DynState → Prop where
  | refl : DynReach s0 s0
  | tail {s s' : DynState} : DynReach s0 s → DynStep s s' → DynReach s0 s'

/-- The five tasks the dynamic example submits. -/
def dynTasks : List Task := [⟨1, 0⟩, ⟨2, 0⟩, ⟨3, 0⟩, ⟨4, 0⟩, ⟨5, 0⟩]

/-- Initial state of the dynamic example: 5 tasks to send, empty queue,
check not yet run, 2 initial workers. -/
def dynInit : DynState := ⟨dynTasks, [], false, 2⟩

/-- Claim C10: in every reachable state of the dynamic-pool example the
backlog never exceeds 5 (only 5 tasks are ever submitted), so the strict
`> 5` threshold of the one-shot check can never be satisfied: the
worker-adding branch is unreachable and the pool always has exactly its
2 initial workers. -/
theorem dynamic_pool_threshold_unreachable (s : DynState)
    (hr : DynReach dynInit s) :
    s.pending.length ≤ 5 ∧ s.workerCount = 2 := by
  suffices h : s.toSend.length + s.pending.length ≤ 5 ∧ s.workerCount = 2 by
    exact ⟨by omega, h.2⟩
  induction hr with
  | refl => exact ⟨by decide, rfl⟩
  | @tail s1 s2 hr hstep ih =>
      obtain ⟨ih1, ih2⟩ := ih
      cases hstep with
      | produce t rest h =>
          refine ⟨?_, ih2⟩
          rw [h] at ih1
          simp only [List.length_cons, List.length_append,
            List.length_nil] at ih1 ⊢
          omega
      | dequeue t rest h =>
          refine ⟨?_, ih2⟩
          rw [h] at ih1
          simp only [List.length_cons] at ih1 ⊢
          omega
      | check h =>
          refine ⟨ih1, ?_⟩
          show (if 5 < s1.pending.length then s1.workerCount + 1
            else s1.workerCount) = 2
          rw [if_neg (by omega)]
          exact ih2

/-- Intermediate states of a concrete dynamic run: one send, then the
one-shot check observing a backlog of 1. -/
def dynS1 : DynState := ⟨[⟨2, 0⟩, ⟨3, 0⟩, ⟨4, 0⟩, ⟨5, 0⟩], [⟨1, 0⟩], false, 2⟩

def dynS2 : DynState := ⟨[⟨2, 0⟩, ⟨3, 0⟩, ⟨4, 0⟩, ⟨5, 0⟩], [⟨1, 0⟩], true, 2⟩

lemma dynReach2 : DynReach dynInit dynS2 := by
  have h1 : DynStep dynInit dynS1 :=
    DynStep.produce dynInit ⟨1, 0⟩ [⟨2, 0⟩, ⟨3, 0⟩, ⟨4, 0⟩, ⟨5, 0⟩] rfl
  have h2 : DynStep dynS1 dynS2 := DynStep.check dynS1 rfl
  exact DynReach.tail (DynReach.tail DynReach.refl h1) h2

/-- Witness for C10 at a concrete reachable state of the dynamic run. -/
theorem dynamic_pool_threshold_unreachable_witness :
    dynS2.pending.length ≤ 5 ∧ dynS2.workerCount = 2 :=
  dynamic_pool_threshold_unreachable dynS2 dynReach2

end WorkerPools
